import Mathlib

/-!
Shallow embedding of the mcstat output renderer (`src/output.rs`, `src/lib.rs`):
the `Table` builder, its three entry kinds, the Minecraft-markup translator,
and the width/padding arithmetic they use.  Rust strings are modelled as Lean
`String` (a list of Unicode scalar values, matching `str::chars`); machine
`usize` arithmetic is `Nat` with underflow made explicit through `Option`;
Rust panics (underflow, byte slicing off a char boundary) are `none`;
sink I/O failure is modelled by a write budget on the sink.
-/

namespace Mcstat

/-- Display width of a character, modelled from the `unicode-width` crate
(an external dependency of the source: `UnicodeWidthStr::width`), restricted
to the character ranges exercised in this development: control characters are
zero-width, CJK Unified Ideographs are double-width, and everything else used
here (ASCII, Latin-1 punctuation such as the section sign) is single-width. -/
def charDisplayWidth (c : Char) : Nat :=
  if c.toNat < 0x20 ∨ c.toNat = 0x7F then 0
  else if 0x4E00 ≤ c.toNat ∧ c.toNat ≤ 0x9FFF then 2
  else 1

/-- `UnicodeWidthStr::width` of a whole string: the sum of its characters'
display widths. -/
def stringWidth (s : String) : Nat :=
  (s.data.map charDisplayWidth).sum

/-- Rust `str::split(c)`: the (possibly empty) segments between occurrences of
`c`.  Splitting the empty string yields `[""]`, and a trailing separator yields
a trailing empty segment, exactly as in Rust. -/
def splitChar (c : Char) : List Char → List (List Char)
  | [] => [[]]
  | x :: xs =>
    if x = c then [] :: splitChar c xs
    else
      match splitChar c xs with
      | [] => [[x]]
      | g :: gs => (x :: g) :: gs

/-- Strip one trailing carriage return, as Rust `str::lines` does per line. -/
def stripCR (l : List Char) : List Char :=
  if l.getLast? = some '\r' then l.dropLast else l

/-- Rust `str::lines` on a character list: split on `'\n'`, drop the trailing
empty segment produced by a final newline, strip a trailing `'\r'` from each
line; the empty string has no lines. -/
def rustLinesL (l : List Char) : List (List Char) :=
  if l = [] then []
  else
    let parts := splitChar '\n' l
    let parts := if l.getLast? = some '\n' then parts.dropLast else parts
    parts.map stripCR

/-- Rust `str::lines` on a string. -/
def rustLines (s : String) : List String :=
  (rustLinesL s.data).map String.mk

/-- Short-circuiting effectful map over `Option`, mirroring how the source's
iterator chains propagate the first panic/failure. -/
def mapOpt (f : α → Option β) : List α → Option (List β)
  | [] => some []
  | a :: as =>
    match f a, mapOpt f as with
    | some b, some bs => some (b :: bs)
    | _, _ => none

/-- A run of `n` copies of a fill character. -/
def fillRun (n : Nat) (c : Char) : String :=
  ⟨List.replicate n c⟩

/-- Rust `format!("{: <width$}", s)` with fill `fill`: left-aligned padding.
Rust's formatter measures the argument by its character count
(`str::chars().count()`), not by display width, and never truncates. -/
def fmtPadLeftAlign (s : String) (w : Nat) (fill : Char) : String :=
  s ++ fillRun (w - s.length) fill

/-- Rust `format!("{:=^width$}", s)`-style centering: character-count measured,
extra odd padding on the right, no truncation. -/
def fmtPadCenter (s : String) (w : Nat) (fill : Char) : String :=
  let pad := w - s.length
  fillRun (pad / 2) fill ++ s ++ fillRun (pad - pad / 2) fill

/-- The 16 crossterm foreground colors selected by the color codes
`'0'`–`'9'`,`'a'`–`'f'` (`src/output.rs`, `src/lib.rs`). -/
inductive McColor
  | black | darkBlue | darkGreen | darkCyan | darkRed | darkMagenta
  | darkYellow | grey | darkGrey | blue | green | cyan | red | magenta
  | yellow | white
  deriving DecidableEq, Repr

/-- The crossterm text attributes selected by the formatting codes
`'k'`,`'l'`,`'m'`,`'n'`,`'o'`. -/
inductive McAttr
  | rapidBlink | bold | crossedOut | underlined | italic
  deriving DecidableEq, Repr

/-- One write to the output sink: either literal text (`Print`/`write!`/
`write_all`) or a terminal styling command (`SetForegroundColor`,
`SetAttribute`, `ResetColor`). -/
inductive Event
  | print (s : String)
  | setFg (c : McColor)
  | setAttr (a : McAttr)
  | resetColor
  deriving DecidableEq, Repr

/-- The markup sentinel character: Unicode section sign U+00A7.  (`lib.rs`
spells it `'§'`; in `output.rs` the same literal survives only as an encoding
mojibake of U+00A7, and the adjacent comment "because of § being 2 bytes"
pins down the intended code point.) -/
def sentinel : Char := '§'

/-- The styling command(s) selected by one code character: the `match c`
arms of `print_mc_formatted` (`lib.rs` 58-86) and `McFormatContent::write_to`
(`output.rs` 119-147).  An unrecognized code selects nothing (`_ => {}`). -/
def styleEvents (c : Char) : List Event :=
  match c with
  | '0' => [.setFg .black]
  | '1' => [.setFg .darkBlue]
  | '2' => [.setFg .darkGreen]
  | '3' => [.setFg .darkCyan]
  | '4' => [.setFg .darkRed]
  | '5' => [.setFg .darkMagenta]
  | '6' => [.setFg .darkYellow]
  | '7' => [.setFg .grey]
  | '8' => [.setFg .darkGrey]
  | '9' => [.setFg .blue]
  | 'a' => [.setFg .green]
  | 'b' => [.setFg .cyan]
  | 'c' => [.setFg .red]
  | 'd' => [.setFg .magenta]
  | 'e' => [.setFg .yellow]
  | 'f' => [.setFg .white]
  | 'k' => [.setAttr .rapidBlink]
  | 'l' => [.setAttr .bold]
  | 'm' => [.setAttr .crossedOut]
  | 'n' => [.setAttr .underlined]
  | 'o' => [.setAttr .italic]
  | 'r' => [.resetColor]
  | _ => []

/-- One non-first split of the markup writer: if the segment is nonempty,
emit the styling command of its first (code) character, then
`Print(&split[1..])`.  The Rust slice `&split[1..]` drops one *byte*, so it is
only well formed when the code character occupies a single UTF-8 byte
(`c.toNat < 0x80`); on a multi-byte code character the slice falls inside the
character and the program panics — modelled as `none`. -/
def segWrite (seg : String) : Option (List Event) :=
  match seg.data with
  | [] => some []
  | c :: rest =>
    if c.toNat < 0x80 then some (styleEvents c ++ [.print ⟨rest⟩])
    else none

/-- The splits of a markup string on the sentinel, as Rust
`s.split('§')` produces them. -/
def mcSplits (s : String) : List String :=
  (splitChar sentinel s.data).map String.mk

/-- `McFormatContent::write_to` (`output.rs` 95-158) = `print_mc_formatted`
(`lib.rs` 34-97): print the first split verbatim, then for every further
split apply its code character and print the remainder, and finally emit one
`ResetColor` unless there was no sentinel at all (the `empty` flag is cleared
by every iteration of the loop, even for an empty split). -/
def McFormatContent.write_to (s : String) : Option (List Event) :=
  match mcSplits s with
  | [] => some []
  | first :: rest =>
    match mapOpt segWrite rest with
    | none => none
    | some evss =>
      some ([Event.print first] ++ evss.flatten ++
        if rest = [] then [] else [.resetColor])

/-- One line's contribution to `McFormatContent::width` (`output.rs` 89):
`l.chars().count() - l.matches('§').count() * 2` in `usize` arithmetic.
The subtraction underflows (debug panic / release wrap) when the line has
fewer than two characters per sentinel occurrence — modelled as `none`. -/
def mcLineVal (l : String) : Option Nat :=
  if l.data.count sentinel * 2 ≤ l.length then
    some (l.length - l.data.count sentinel * 2)
  else none

/-- `McFormatContent::width` (`output.rs` 84-93): the maximum of the per-line
values, `0` for the empty iterator (`unwrap_or_default`). -/
def McFormatContent.width (s : String) : Option Nat :=
  (mapOpt mcLineVal (rustLines s)).map (fun ws => ws.foldl max 0)

/-- `impl TableContent for String`'s `width` (`output.rs` 63-66): the maximum
display width over the string's lines, `0` if there are none. -/
def stringContentWidth (s : String) : Nat :=
  ((rustLines s).map stringWidth).foldl max 0

/-- A `TableContent` value: either a plain `String` or a
`McFormatContent`-wrapped markup string (the two `impl TableContent` blocks
in `output.rs`). -/
inductive TableContent
  | str (s : String)
  | mc (s : String)
  deriving DecidableEq, Repr

/-- `TableContent::width`, dispatching on the concrete impl. -/
def TableContent.width : TableContent → Option Nat
  | .str s => some (stringContentWidth s)
  | .mc s => McFormatContent.width s

/-- `TableContent::write_to`: a plain string is one `write_all`; markup text
goes through the translator. -/
def TableContent.writeEvents : TableContent → Option (List Event)
  | .str s => some [.print s]
  | .mc s => McFormatContent.write_to s

/-- A table entry: `SmallTableEntry`, `BigTableEntry` or `BlankTableEntry`
(`output.rs` 165-214), as a closed sum. -/
inductive TEntry
  | small (name : String) (val : TableContent)
  | big (name : String) (val : TableContent)
  | blank
  deriving DecidableEq, Repr

/-- The `Table` struct (`output.rs` 11-15): the appended entries and the
running shared column width for small entries. -/
structure Table where
  entries : List TEntry
  smallEntryWidth : Nat
  deriving DecidableEq, Repr

/-- `Table::new` via `Default`: no entries, width `0`. -/
def Table.new : Table := ⟨[], 0⟩

/-- `Table::set_small_width` (`output.rs` 51-55). -/
def Table.set_small_width (t : Table) (w : Nat) : Table :=
  if w > t.smallEntryWidth then { t with smallEntryWidth := w } else t

/-- `Table::small_entry` (`output.rs` 38-44): record the label's display
width, then append the entry. -/
def Table.small_entry (t : Table) (name : String) (val : TableContent) : Table :=
  let t' := t.set_small_width (stringWidth name)
  { t' with entries := t'.entries ++ [.small name val] }

/-- `Table::big_entry` (`output.rs` 46-49). -/
def Table.big_entry (t : Table) (name : String) (val : TableContent) : Table :=
  { t with entries := t.entries ++ [.big name val] }

/-- `Table::blank` (`output.rs` 34-36). -/
def Table.blankEntry (t : Table) : Table :=
  { t with entries := t.entries ++ [.blank] }

/-- `TableEntry::print` for the three entry kinds (`output.rs` 167-214), as
the sequence of writes it performs:
* small: `write!("{: <width$} | ", name)` padded to the table's current
  `small_entry_width`, the content, then `"\n"`;
* big: `width = max(val.width(), name.width() + 4)`, then the `'='`-centered
  name line, the content, then `"\n"`, a footer of `width` fills and `"\n"`;
* blank: a single newline.
A panic inside the content's `width`/`write_to` is propagated as `none`. -/
def TEntry.printEvents : TEntry → Table → Option (List Event)
  | .small name val, t =>
    match val.writeEvents with
    | none => none
    | some ws =>
      some ([.print (fmtPadLeftAlign name t.smallEntryWidth ' ' ++ " | ")] ++
        ws ++ [.print "\n"])
  | .big name val, _ =>
    match val.width with
    | none => none
    | some w =>
      match val.writeEvents with
      | none => none
      | some ws =>
        some ([.print (fmtPadCenter name (max w (stringWidth name + 4)) '=' ++ "\n")] ++
          ws ++
          [.print ("\n" ++ fillRun (max w (stringWidth name + 4)) '=' ++ "\n")])
  | .blank, _ => some [.print "\n"]

/-- `Table::print` (`output.rs` 22-28) as a pure denotation: the concatenated
writes of all entries in append order (each entry printed against the table's
final layout state). -/
def Table.printEvents (t : Table) : Option (List Event) :=
  (mapOpt (fun e => TEntry.printEvents e t) t.entries).map List.flatten

/-- The literal text carried by one write: styling commands contribute no
literal text (they expand to terminal escape sequences). -/
def Event.text : Event → String
  | .print s => s
  | _ => ""

/-- The rendered text of a sequence of writes, escape sequences excluded. -/
def eventsText (evs : List Event) : String :=
  (evs.map Event.text).foldl (· ++ ·) ""

/-- The rendered text of a whole table. -/
def Table.renderText (t : Table) : Option String :=
  t.printEvents.map eventsText

deriving instance DecidableEq for Except

/-- An output sink: what has been written so far, plus a write budget
modelling I/O failure — `none` never fails, `some k` accepts `k` more writes
and then fails (a closed pipe, say). -/
structure Sink where
  written : List Event
  budget : Option Nat
  deriving DecidableEq, Repr

/-- One fallible write to the sink; on failure the error carries the sink as
the writer last saw it (`Err` from `write!`/`execute`). -/
def Sink.write (sk : Sink) (e : Event) : Except Sink Sink :=
  match sk.budget with
  | none => .ok { sk with written := sk.written ++ [e] }
  | some 0 => .error sk
  | some (k + 1) => .ok { written := sk.written ++ [e], budget := some k }

/-- Perform a sequence of writes, stopping at the first failure — every
individual write in the source sits behind a `?`. -/
def writeAll : Sink → List Event → Except Sink Sink
  | sk, [] => .ok sk
  | sk, e :: rest =>
    match sk.write e with
    | .error s => .error s
    | .ok s => writeAll s rest

/-- The loop body of `Table::print` (`output.rs` 22-28): print each entry in
order against the sink, propagating the first write failure with `?`.
A content panic (`none`) precedes that entry's writes. -/
def printToAux (t : Table) : List TEntry → Sink → Option (Except Sink Sink)
  | [], sk => some (.ok sk)
  | e :: es, sk =>
    match TEntry.printEvents e t with
    | none => none
    | some evs =>
      match writeAll sk evs with
      | .error s => some (.error s)
      | .ok s => printToAux t es s

/-- `Table::print` against a fallible sink. -/
def Table.printTo (t : Table) (sk : Sink) : Option (Except Sink Sink) :=
  printToAux t t.entries sk

/-- One append call on a table, for reasoning about arbitrary append
sequences (`small_entry` / `big_entry` / `blank` call sites). -/
inductive Op
  | small (name : String) (val : TableContent)
  | big (name : String) (val : TableContent)
  | blank
  deriving DecidableEq, Repr

/-- Apply one append call. -/
def applyOp (t : Table) : Op → Table
  | .small n v => t.small_entry n v
  | .big n v => t.big_entry n v
  | .blank => t.blankEntry

/-- Apply a sequence of append calls in program order. -/
def applyOps (t : Table) (ops : List Op) : Table :=
  ops.foldl applyOp t

/-- The labels of the small-entry appends in a sequence, in order. -/
def smallLabels : List Op → List String
  | [] => []
  | .small n _ :: rest => n :: smallLabels rest
  | .big _ _ :: rest => smallLabels rest
  | .blank :: rest => smallLabels rest

/-- Modelled from the spec: the `max_block_width` ceiling on a block entry's
frame width.  `main.rs` (`format_table`) assigns `table.max_block_width` from
the terminal size, but the `Table` in this snapshot's `output.rs` has no such
field — the clamping revision of `BigTableEntry::print` is not under `src/`.
Per §3/§4.1 of the spec the width is `min(max_block_width, max(label_width +
4, content_width))`, with `none` the unbounded default. -/
def clampWidth : Option Nat → Nat → Nat
  | none, w => w
  | some m, w => min m w

/-- Modelled from the spec: `BigTableEntry::print` with the `max_block_width`
ceiling applied to the frame width; with ceiling `none` this is exactly the
`TEntry.big` case of `TEntry.printEvents` from `output.rs`. -/
def bigPrintClamped (maxW : Option Nat) (name : String) (val : TableContent) :
    Option (List Event) :=
  match val.width with
  | none => none
  | some w =>
    match val.writeEvents with
    | none => none
    | some ws =>
      some ([.print (fmtPadCenter name (clampWidth maxW (max w (stringWidth name + 4))) '=' ++ "\n")] ++
        ws ++
        [.print ("\n" ++ fillRun (clampWidth maxW (max w (stringWidth name + 4))) '=' ++ "\n")])

/-- Modelled from the spec: `strip(s)` "removes every sentinel+code pair,
leaving only the literal text segments concatenated in order" (§4.2; no strip
function is under `src/` in this snapshot), on a character list: the first
split verbatim, each later split with its leading code character dropped. -/
def stripL (l : List Char) : List Char :=
  match splitChar sentinel l with
  | [] => []
  | first :: rest => first ++ (rest.map List.tail).flatten

/-- Modelled from the spec: `strip` on strings. -/
def stripSpec (s : String) : String :=
  ⟨stripL s.data⟩

/-- The claim's reading of one styled segment: the styling command implied by
the leading control code, then the literal remainder of the segment. -/
def segSpec (seg : String) : List Event :=
  match seg.data with
  | [] => []
  | c :: txt => styleEvents c ++ [Event.print ⟨txt⟩]

/-- The claim's description of styled output (§4.2 `to_styled_stream`): each
literal segment prefixed by the styling command implied by the preceding
control code, no command before the first segment, and one final reset
command exactly when a control code appeared. -/
def styledSpecEvents (s : String) : List Event :=
  match mcSplits s with
  | [] => []
  | first :: rest =>
    [Event.print first] ++ (rest.map segSpec).flatten ++
      if rest = [] then [] else [.resetColor]

/-- The small-entry sequence of the spec's concrete scenario (§8.6):
`("Online Players","5")`, `("Max Players","100")`, `("Protocol","751")`. -/
def scenarioSmallTable : Table :=
  ((Table.new.small_entry "Online Players" (.str "5")).small_entry
    "Max Players" (.str "100")).small_entry "Protocol" (.str "751")

/-- A table whose first small-entry label is the double-width CJK character
`"世"` and whose second is the three-character ASCII label `"abc"`. -/
def wideLabelTable : Table :=
  (Table.new.small_entry "世" (.str "x")).small_entry "abc" (.str "y")

/-- The block entry of the spec's concrete scenario (§8.7): label
`"Description"`, single-line content `"A Server"`. -/
def descriptionEntry : TEntry := .big "Description" (.str "A Server")

/-- A two-entry table used to exercise sink failure mid-render. -/
def abortDemoTable : Table :=
  (Table.new.small_entry "A" (.str "x")).blankEntry

/-! ### Supporting lemmas -/

theorem splitChar_ne_nil (c : Char) (l : List Char) : splitChar c l ≠ [] := by
  induction l with
  | nil => simp [splitChar]
  | cons x xs ih =>
    simp only [splitChar]
    split
    · simp
    · cases h : splitChar c xs with
      | nil => simp
      | cons g gs => simp

theorem splitChar_of_not_mem {c : Char} {l : List Char} (h : c ∉ l) :
    splitChar c l = [l] := by
  induction l with
  | nil => rfl
  | cons x xs ih =>
    have hx : ¬x = c := fun e => h (e ▸ List.mem_cons_self x xs)
    have hxs : c ∉ xs := fun m => h (List.mem_cons_of_mem _ m)
    simp only [splitChar, if_neg hx, ih hxs]

theorem string_length_data (s : String) : s.length = s.data.length := rfl

theorem string_length_append (s t : String) : (s ++ t).length = s.length + t.length := by
  cases s with
  | mk a =>
    cases t with
    | mk b => simp [string_length_data, String.append]

theorem string_data_append (s t : String) : (s ++ t).data = s.data ++ t.data := by
  cases s with
  | mk a =>
    cases t with
    | mk b => simp [String.append]

theorem fillRun_length (n : Nat) (c : Char) : (fillRun n c).length = n := by
  simp [fillRun, string_length_data]

theorem fmtPadLeftAlign_length (s : String) (w : Nat) (fill : Char) :
    (fmtPadLeftAlign s w fill).length = max s.length w := by
  simp only [fmtPadLeftAlign, string_length_append, fillRun_length]
  omega

theorem fmtPadCenter_length (s : String) (w : Nat) (fill : Char) :
    (fmtPadCenter s w fill).length = max s.length w := by
  simp only [fmtPadCenter, string_length_append, fillRun_length]
  omega

theorem stringWidth_append (s t : String) :
    stringWidth (s ++ t) = stringWidth s + stringWidth t := by
  simp [stringWidth, string_data_append]

theorem stringWidth_fillRun (n : Nat) (c : Char) :
    stringWidth (fillRun n c) = n * charDisplayWidth c := by
  simp [stringWidth, fillRun, List.map_replicate, List.sum_replicate, smul_eq_mul]

theorem sum_map_ones {l : List Char} (h : ∀ c ∈ l, charDisplayWidth c = 1) :
    (l.map charDisplayWidth).sum = l.length := by
  induction l with
  | nil => rfl
  | cons x xs ih =>
    simp only [List.map_cons, List.sum_cons, List.length_cons,
      h x (List.mem_cons_self x xs),
      ih (fun c hc => h c (List.mem_cons_of_mem _ hc))]
    omega

theorem mapOpt_eq_map (f : α → Option β) (g : α → β) :
    ∀ l : List α, (∀ a ∈ l, f a = some (g a)) → mapOpt f l = some (l.map g)
  | [], _ => rfl
  | a :: as, h => by
    simp only [mapOpt, h a (List.mem_cons_self a as),
      mapOpt_eq_map f g as (fun x hx => h x (List.mem_cons_of_mem _ hx)),
      List.map_cons]

theorem mapOpt_some_eq (f : α → Option β) (g : α → β)
    (hfg : ∀ a b, f a = some b → b = g a) :
    ∀ (l : List α) (bs : List β), mapOpt f l = some bs → bs = l.map g := by
  intro l
  induction l with
  | nil =>
    intro bs h
    simp only [mapOpt, Option.some.injEq] at h
    simp [← h]
  | cons a as ih =>
    intro bs h
    simp only [mapOpt] at h
    cases hfa : f a with
    | none => rw [hfa] at h; cases h
    | some b =>
      rw [hfa] at h
      cases hrest : mapOpt f as with
      | none => rw [hrest] at h; cases h
      | some bs2 =>
        rw [hrest] at h
        simp only [Option.some.injEq] at h
        rw [← h, List.map_cons, hfg a b hfa, ih bs2 hrest]

theorem le_foldl_max (l : List Nat) : ∀ a : Nat, a ≤ l.foldl max a := by
  induction l with
  | nil => intro a; exact Nat.le_refl a
  | cons x xs ih =>
    intro a
    exact Nat.le_trans (Nat.le_max_left a x) (ih (max a x))

theorem writeAll_none_budget (evs : List Event) :
    ∀ w : List Event, writeAll ⟨w, none⟩ evs = .ok ⟨w ++ evs, none⟩ := by
  induction evs with
  | nil => intro w; simp [writeAll]
  | cons e rest ih =>
    intro w
    simp only [writeAll, Sink.write]
    rw [ih (w ++ [e])]
    simp

theorem writeAll_some_budget (evs : List Event) :
    ∀ (w : List Event) (k : Nat),
      writeAll ⟨w, some k⟩ evs =
        if evs.length ≤ k then .ok ⟨w ++ evs, some (k - evs.length)⟩
        else .error ⟨w ++ evs.take k, some 0⟩ := by
  induction evs with
  | nil => intro w k; simp [writeAll]
  | cons e rest ih =>
    intro w k
    cases k with
    | zero => simp [writeAll, Sink.write]
    | succ k =>
      simp only [writeAll, Sink.write]
      rw [ih (w ++ [e]) k]
      simp only [List.length_cons, List.take_succ_cons, List.append_assoc,
        List.singleton_append, Nat.succ_sub_succ]
      split
      · rw [if_pos (by omega)]
      · rw [if_neg (by omega)]

theorem writeAll_append (a b : List Event) :
    ∀ sk : Sink,
      writeAll sk (a ++ b) =
        match writeAll sk a with
        | .error s => .error s
        | .ok s => writeAll s b := by
  induction a with
  | nil => intro sk; simp [writeAll]
  | cons e rest ih =>
    intro sk
    simp only [List.cons_append, writeAll]
    cases sk.write e with
    | error s => rfl
    | ok s => exact ih s

theorem printToAux_eq (t : Table) :
    ∀ (es : List TEntry) (evss : List (List Event)) (sk : Sink),
      mapOpt (fun e => TEntry.printEvents e t) es = some evss →
      printToAux t es sk = some (writeAll sk evss.flatten) := by
  intro es
  induction es with
  | nil =>
    intro evss sk h
    simp only [mapOpt, Option.some.injEq] at h
    simp [printToAux, ← h, writeAll]
  | cons e rest ih =>
    intro evss sk h
    simp only [mapOpt] at h
    cases hf : TEntry.printEvents e t with
    | none => rw [hf] at h; cases h
    | some evs1 =>
      rw [hf] at h
      cases hm : mapOpt (fun e => TEntry.printEvents e t) rest with
      | none => rw [hm] at h; cases h
      | some evssr =>
        rw [hm] at h
        simp only [Option.some.injEq] at h
        rw [← h]
        simp only [printToAux, hf, List.flatten_cons]
        rw [writeAll_append]
        cases hw : writeAll sk evs1 with
        | error s => rfl
        | ok s => exact ih evssr s hm

theorem set_small_width_eq_max (t : Table) (w : Nat) :
    (t.set_small_width w).smallEntryWidth = max t.smallEntryWidth w := by
  simp only [Table.set_small_width]
  split
  · simp; omega
  · simp; omega

theorem applyOps_smallEntryWidth (ops : List Op) :
    ∀ t : Table,
      (applyOps t ops).smallEntryWidth =
        ((smallLabels ops).map stringWidth).foldl max t.smallEntryWidth := by
  induction ops with
  | nil => intro t; rfl
  | cons op rest ih =>
    intro t
    cases op with
    | small n v =>
      show (applyOps (t.small_entry n v) rest).smallEntryWidth = _
      rw [ih]
      simp only [smallLabels, List.map_cons, List.foldl_cons]
      have : (t.small_entry n v).smallEntryWidth = max t.smallEntryWidth (stringWidth n) := by
        simp only [Table.small_entry]
        exact set_small_width_eq_max t (stringWidth n)
      rw [this]
    | big n v =>
      show (applyOps (t.big_entry n v) rest).smallEntryWidth = _
      rw [ih]
      rfl
    | blank =>
      show (applyOps t.blankEntry rest).smallEntryWidth = _
      rw [ih]
      rfl

theorem stripL_length :
    ∀ l : List Char,
      (∀ seg ∈ (splitChar sentinel l).tail, seg ≠ []) →
      l.length = (stripL l).length + 2 * l.count sentinel := by
  intro l
  induction l with
  | nil => intro _; decide
  | cons x xs ih =>
    intro h
    obtain ⟨g, gs, hgg⟩ : ∃ g gs, splitChar sentinel xs = g :: gs := by
      cases hh : splitChar sentinel xs with
      | nil => exact absurd hh (splitChar_ne_nil _ _)
      | cons g gs => exact ⟨g, gs, rfl⟩
    by_cases hx : x = sentinel
    · subst hx
      have hsplit : splitChar sentinel (sentinel :: xs) = [] :: g :: gs := by
        simp [splitChar, hgg]
      have hg : g ≠ [] := by
        apply h g
        rw [hsplit]
        exact List.mem_cons_self g gs
      have hrest : ∀ seg ∈ (splitChar sentinel xs).tail, seg ≠ [] := by
        intro seg hseg
        apply h seg
        rw [hsplit]
        rw [hgg] at hseg
        exact List.mem_cons_of_mem _ hseg
      have ihh := ih hrest
      have e1 : stripL (sentinel :: xs) = g.tail ++ (gs.map List.tail).flatten := by
        simp [stripL, hsplit]
      have e2 : stripL xs = g ++ (gs.map List.tail).flatten := by
        simp [stripL, hgg]
      have hglen : g.length = g.tail.length + 1 := by
        cases g with
        | nil => exact absurd rfl hg
        | cons a b => simp
      rw [e2] at ihh
      simp only [e1, List.length_cons, List.length_append,
        List.count_cons_self] at *
      omega
    · have hsplit : splitChar sentinel (x :: xs) = (x :: g) :: gs := by
        simp [splitChar, hx, hgg]
      have hrest : ∀ seg ∈ (splitChar sentinel xs).tail, seg ≠ [] := by
        intro seg hseg
        apply h seg
        rw [hsplit]
        rw [hgg] at hseg
        exact hseg
      have ihh := ih hrest
      have e1 : stripL (x :: xs) = x :: (g ++ (gs.map List.tail).flatten) := by
        simp [stripL, hsplit]
      have e2 : stripL xs = g ++ (gs.map List.tail).flatten := by
        simp [stripL, hgg]
      have hcount : (x :: xs).count sentinel = xs.count sentinel := by
        simp [List.count_cons, hx]
      rw [e2] at ihh
      simp only [e1, List.length_cons, List.length_append, hcount] at *
      omega

theorem mcLineVal_eq_strip_length {l : String}
    (h : ∀ seg ∈ (splitChar sentinel l.data).tail, seg ≠ []) :
    mcLineVal l = some (stripL l.data).length := by
  have hs := stripL_length l.data h
  have hl : l.length = l.data.length := rfl
  simp only [mcLineVal]
  rw [if_pos (by omega)]
  congr 1
  omega

theorem segWrite_eq_segSpec :
    ∀ (seg : String) (es : List Event), segWrite seg = some es → es = segSpec seg := by
  intro seg es h
  simp only [segWrite] at h
  simp only [segSpec]
  cases hd : seg.data with
  | nil =>
    rw [hd] at h
    simp only [Option.some.injEq] at h
    rw [← h]
  | cons c txt =>
    rw [hd] at h
    dsimp only at h ⊢
    by_cases hc : c.toNat < 0x80
    · rw [if_pos hc] at h
      simp only [Option.some.injEq] at h
      rw [← h]
    · rw [if_neg hc] at h
      cases h

/-! ### Claim theorems -/

/-- C1 (counterexample): at the concrete block entry with label
`"Description"` and content `"A Server"` (unbounded ceiling), the frame width
is 15 but the rendered header line is `"==Description=="` — the label centered
among fill — and is *not* a line of 15 fill characters, so the claim that the
header consists of exactly `width` fill characters is false. -/
theorem block_header_not_all_fill :
    bigPrintClamped none "Description" (.str "A Server") =
      some [.print "==Description==\n", .print "A Server",
        .print "\n===============\n"]
    ∧ "==Description==".length = 15
    ∧ "==Description==" ≠ fillRun 15 '=' := by
  decide

/-- C2 (counterexample): the string `"世"` contains no markup; its stripped
form is itself, with display width 2, yet `McFormatContent::width` reports 1 —
the width used for layout is the *character count* of the stripped text, not
its display width. -/
theorem mc_width_ignores_display_width :
    McFormatContent.width "世" = some 1
    ∧ stringContentWidth (stripSpec "世") = 2
    ∧ (1 : Nat) ≠ 2 := by
  decide

/-- C3 (counterexample): in a table with small-entry labels `"世"` and
`"abc"`, `small_entry_width` is 3 (display widths 2 and 3), but the printed
label field for `"世"` is padded by character count to `"世  "`, whose display
width is 4 ≠ 3 — padding is not measured in Unicode display width, and the
double-width label misaligns. -/
theorem small_pad_double_width_misaligned :
    wideLabelTable.smallEntryWidth = 3
    ∧ wideLabelTable.renderText = some "世   | x\nabc | y\n"
    ∧ stringWidth (fmtPadLeftAlign "世" 3 ' ') = 4
    ∧ (4 : Nat) ≠ 3 := by
  decide

/-- C4: a sentinel followed by an unrecognized *single-byte* code character is
indeed a silent no-op (`"§z!"` prints just `"!"`), but for the unrecognized
multi-byte code character `'é'` the slice `&split[1..]` falls inside the
character's two-byte UTF-8 encoding and the program panics (`none`) instead of
emitting the remaining text — contradicting the spec's "any other code
character is a no-op", and matching the latent byte-offset bug the spec's §9
flags. -/
theorem mc_write_panics_on_multibyte_code :
    McFormatContent.write_to "§é!" = none
    ∧ McFormatContent.write_to "§z!" =
        some [.print "", .print "!", .resetColor] := by
  decide

/-- C8 (counterexample): appending `("Online Players","5")`,
`("Max Players","100")`, `("Protocol","751")` yields `small_entry_width` 14 —
`"Online Players"` (width 14), not `"Max Players"` (width 11), is the longest
label — so the rendering pads labels to 13 nowhere, and differs from the
width-13 rendering the claim describes. -/
theorem scenario_small_width_not_13 :
    scenarioSmallTable.smallEntryWidth = 14
    ∧ scenarioSmallTable.renderText =
        some "Online Players | 5\nMax Players    | 100\nProtocol       | 751\n"
    ∧ ("Online Players | 5\nMax Players    | 100\nProtocol       | 751\n" : String) ≠
        "Online Players | 5\nMax Players   | 100\nProtocol      | 751\n" := by
  decide

/-- C8 (amended): the three small entries render as three lines whose labels
are left-padded to width 14 — the display width of `"Online Players"`, the
longest label — followed by `" | "` and the value. -/
theorem scenario_small_width_14 :
    scenarioSmallTable.renderText =
      some "Online Players | 5\nMax Players    | 100\nProtocol       | 751\n"
    ∧ stringWidth "Online Players" = 14
    ∧ scenarioSmallTable.smallEntryWidth = 14 := by
  decide

/-- C9 (counterexample): the block entry `("Description", "A Server")` with
unbounded max width renders its header as `"==Description=="` — 15 characters,
the 11-character label centered with two fill characters on each side — not as
the 16-character string `"===Description=="` the claim gives. -/
theorem description_header_not_16 :
    TEntry.printEvents descriptionEntry Table.new =
      some [.print "==Description==\n", .print "A Server",
        .print "\n===============\n"]
    ∧ ("==Description==" : String) ≠ "===Description=="
    ∧ "===Description==".length = 16 := by
  decide

/-- C9 (amended): the block entry `("Description", "A Server")` renders a
frame of width `max(11+4, 8) = 15`: header `"==Description=="` (15 characters,
label centered), then `"A Server"`, then a footer of 15 fill characters. -/
theorem description_block_render :
    TEntry.printEvents descriptionEntry Table.new =
      some [.print "==Description==\n", .print "A Server",
        .print "\n===============\n"]
    ∧ "==Description==".length = 15
    ∧ fillRun 15 '=' = "===============" := by
  decide

/-- C1 (amended): a block entry's frame width is
`min(max_block_width, max(label_width + 4, content_width))` (the ceiling
spec-modelled, unbounded as `none`); the footer line is exactly that many fill
characters, and the header line is exactly that many *characters* — the label
centered among fill — whenever the label has no double- or zero-width
characters and the clamped width still accommodates `label_width + 4`. -/
theorem block_width_clamped_formula (maxW : Option Nat) (name : String)
    (val : TableContent) (w W : Nat) (ws : List Event)
    (hw : val.width = some w) (hws : val.writeEvents = some ws)
    (hW : W = clampWidth maxW (max w (stringWidth name + 4))) :
    bigPrintClamped maxW name val =
      some ([.print (fmtPadCenter name W '=' ++ "\n")] ++ ws ++
        [.print ("\n" ++ fillRun W '=' ++ "\n")])
    ∧ (fillRun W '=').length = W
    ∧ (name.length = stringWidth name → stringWidth name + 4 ≤ W →
        (fmtPadCenter name W '=').length = W) := by
  subst hW
  refine ⟨?_, fillRun_length _ _, ?_⟩
  · simp only [bigPrintClamped, hw, hws]
  · intro h1 h2
    rw [fmtPadCenter_length]
    omega

/-- C1 (witness): with ceiling 10, label `"Mods"` and 14-wide content, the
frame width is `min(10, max(4+4, 14)) = 10` and both frame lines have exactly
10 characters. -/
theorem block_width_clamped_formula_witness :
    TableContent.width (.str "abcdefghijklmn") = some 14
    ∧ (10 : Nat) = clampWidth (some 10) (max 14 (stringWidth "Mods" + 4))
    ∧ bigPrintClamped (some 10) "Mods" (.str "abcdefghijklmn") =
        some [.print "===Mods===\n", .print "abcdefghijklmn",
          .print "\n==========\n"]
    ∧ (fmtPadCenter "Mods" 10 '=').length = 10 := by
  have h := block_width_clamped_formula (some 10) "Mods" (.str "abcdefghijklmn")
    14 10 [.print "abcdefghijklmn"] (by decide) (by decide) (by decide)
  exact ⟨by decide, by decide, h.1.trans (by decide), h.2.2 (by decide) (by decide)⟩

/-- C2 (amended): when every sentinel in every line is followed by a code
character and every character of the stripped text is single-width, the width
`McFormatContent::width` reports equals the display width of the stripped
text (per line, maximized) — in general it is the stripped text's *character
count*, not its display width. -/
theorem mc_width_eq_stripped_char_width (s : String)
    (h1 : ∀ l ∈ rustLines s, ∀ seg ∈ (splitChar sentinel l.data).tail, seg ≠ [])
    (h2 : ∀ l ∈ rustLines s, ∀ c ∈ stripL l.data, charDisplayWidth c = 1) :
    McFormatContent.width s =
      some (((rustLines s).map (fun l => stringWidth (stripSpec l))).foldl max 0) := by
  have hall : ∀ l ∈ rustLines s,
      mcLineVal l = some (stringWidth (stripSpec l)) := by
    intro l hl
    rw [mcLineVal_eq_strip_length (h1 l hl)]
    have e : stringWidth (stripSpec l) = (stripL l.data).length := by
      show ((stripL l.data).map charDisplayWidth).sum = (stripL l.data).length
      exact sum_map_ones (h2 l hl)
    rw [e]
  simp only [McFormatContent.width]
  rw [mapOpt_eq_map mcLineVal (fun l => stringWidth (stripSpec l)) (rustLines s) hall]
  rfl

/-- C2 (witness): for `"§aHi"` both side conditions hold and the reported
width 2 equals the display width of the stripped text `"Hi"`. -/
theorem mc_width_eq_stripped_char_width_witness :
    (∀ l ∈ rustLines "§aHi", ∀ seg ∈ (splitChar sentinel l.data).tail, seg ≠ [])
    ∧ (∀ l ∈ rustLines "§aHi", ∀ c ∈ stripL l.data, charDisplayWidth c = 1)
    ∧ McFormatContent.width "§aHi" = some 2
    ∧ stringWidth (stripSpec "§aHi") = 2 := by
  have h := mc_width_eq_stripped_char_width "§aHi" (by decide) (by decide)
  exact ⟨by decide, by decide, h.trans (by decide), by decide⟩

/-- C3 (amended): a small entry renders as the label, padding, `" | "`, the
content, then a newline; the padding is measured by *character count* (Rust's
formatter), so the padded label spans `small_entry_width` display columns
exactly when the label's character count equals its display width. -/
theorem small_entry_pads_by_char_count (t : Table) (name : String)
    (val : TableContent) (ws : List Event) (h : val.writeEvents = some ws) :
    TEntry.printEvents (.small name val) t =
      some ([.print (fmtPadLeftAlign name t.smallEntryWidth ' ' ++ " | ")] ++
        ws ++ [.print "\n"])
    ∧ (fmtPadLeftAlign name t.smallEntryWidth ' ').length =
        max name.length t.smallEntryWidth
    ∧ (name.length = stringWidth name → name.length ≤ t.smallEntryWidth →
        stringWidth (fmtPadLeftAlign name t.smallEntryWidth ' ') =
          t.smallEntryWidth) := by
  refine ⟨?_, fmtPadLeftAlign_length _ _ _, ?_⟩
  · simp only [TEntry.printEvents, h]
  · intro h1 h2
    rw [fmtPadLeftAlign, stringWidth_append, stringWidth_fillRun]
    have e : charDisplayWidth ' ' = 1 := by decide
    rw [e]
    omega

/-- C3 (witness): the ASCII label `"Ping"` padded into a column of width 9
occupies exactly 9 display columns, and the small entry renders as the padded
label, `" | "`, the content and a newline. -/
theorem small_entry_pads_by_char_count_witness :
    TableContent.writeEvents (.str "42") = some [.print "42"]
    ∧ TEntry.printEvents (.small "Ping" (.str "42")) ⟨[], 9⟩ =
        some [.print "Ping      | ", .print "42", .print "\n"]
    ∧ stringWidth (fmtPadLeftAlign "Ping" 9 ' ') = 9 := by
  have h := small_entry_pads_by_char_count ⟨[], 9⟩ "Ping" (.str "42")
    [.print "42"] (by decide)
  exact ⟨by decide, h.1.trans (by decide), h.2.2 (by decide) (by decide)⟩

/-- C5: after any sequence of appends, `small_entry_width` equals the maximum
display width of the small-entry labels appended so far (`0` for none); it is
monotone under appending more entries; and a small entry prints padded to the
table's `small_entry_width` at render time, so its alignment depends on
labels appended after it as well. -/
theorem small_entry_width_running_max (ops : List Op) :
    (applyOps Table.new ops).smallEntryWidth =
      ((smallLabels ops).map stringWidth).foldl max 0
    ∧ (∀ more : List Op,
        (applyOps Table.new ops).smallEntryWidth ≤
          (applyOps Table.new (ops ++ more)).smallEntryWidth)
    ∧ (∀ (t : Table) (name : String) (val : TableContent) (ws : List Event),
        val.writeEvents = some ws →
        TEntry.printEvents (.small name val) t =
          some ([.print (fmtPadLeftAlign name t.smallEntryWidth ' ' ++ " | ")] ++
            ws ++ [.print "\n"])) := by
  refine ⟨applyOps_smallEntryWidth ops Table.new, ?_, ?_⟩
  · intro more
    have e : applyOps Table.new (ops ++ more) =
        applyOps (applyOps Table.new ops) more := by
      simp [applyOps, List.foldl_append]
    rw [e, applyOps_smallEntryWidth more]
    exact le_foldl_max _ _
  · intro t name val ws h
    simp only [TEntry.printEvents, h]

/-- C5 (witness): appending `"Version"` (width 7) and then `"Max Players"`
(width 11) leaves `small_entry_width` at 11, and a small entry prints padded
to the render-time width. -/
theorem small_entry_width_running_max_witness :
    (applyOps Table.new [.small "Version" (.str "1.16"), .blank,
        .small "Max Players" (.str "100")]).smallEntryWidth = 11
    ∧ TableContent.writeEvents (.str "1.16") = some [.print "1.16"]
    ∧ TEntry.printEvents (.small "Version" (.str "1.16")) ⟨[], 11⟩ =
        some [.print "Version     | ", .print "1.16", .print "\n"] := by
  have h := small_entry_width_running_max
    [.small "Version" (.str "1.16"), .blank, .small "Max Players" (.str "100")]
  refine ⟨h.1.trans (by decide), by decide, ?_⟩
  have h3 := h.2.2 ⟨[], 11⟩ "Version" (.str "1.16") [.print "1.16"] (by decide)
  exact h3.trans (by decide)

/-- C6: rendering writes every entry's events to the sink in append order in
one pass: with an unfailing sink it writes exactly the concatenated event
sequence; with a sink failing after `k` writes it returns the I/O error with
exactly the first `k` events written and nothing further. -/
theorem render_single_pass_first_failure (t : Table) (evs : List Event)
    (k : Nat) (h : t.printEvents = some evs) :
    t.printTo ⟨[], none⟩ = some (.ok ⟨evs, none⟩)
    ∧ (evs.length ≤ k →
        t.printTo ⟨[], some k⟩ = some (.ok ⟨evs, some (k - evs.length)⟩))
    ∧ (k < evs.length →
        t.printTo ⟨[], some k⟩ = some (.error ⟨evs.take k, some 0⟩)) := by
  simp only [Table.printEvents] at h
  cases hm : mapOpt (fun e => TEntry.printEvents e t) t.entries with
  | none => rw [hm] at h; cases h
  | some evss =>
    rw [hm] at h
    simp only [Option.map_some', Option.some.injEq] at h
    subst h
    refine ⟨?_, ?_, ?_⟩
    · rw [Table.printTo, printToAux_eq t t.entries evss _ hm, writeAll_none_budget]
      simp
    · intro hk
      rw [Table.printTo, printToAux_eq t t.entries evss _ hm,
        writeAll_some_budget, if_pos hk]
      simp
    · intro hk
      rw [Table.printTo, printToAux_eq t t.entries evss _ hm,
        writeAll_some_budget, if_neg (by omega)]
      simp

/-- C6 (witness): the two-entry demo table produces four writes; a sink
failing after 2 writes receives exactly the first two events and the render
aborts with the error. -/
theorem render_single_pass_first_failure_witness :
    abortDemoTable.printEvents =
      some [.print "A | ", .print "x", .print "\n", .print "\n"]
    ∧ abortDemoTable.printTo ⟨[], some 2⟩ =
        some (.error ⟨[.print "A | ", .print "x"], some 0⟩) := by
  have h := render_single_pass_first_failure abortDemoTable
    [.print "A | ", .print "x", .print "\n", .print "\n"] 2 (by decide)
  exact ⟨by decide, (h.2.2 (by decide)).trans (by decide)⟩

/-- C7: whenever the styled writer succeeds, its output is exactly the
claim's description — each literal segment prefixed by the styling command of
the control code preceding it, no command before the first segment, one final
reset exactly when a control code appeared — and input without any sentinel
emits nothing beyond the literal text. -/
theorem styled_stream_matches_claim (s : String) (evs : List Event)
    (h : McFormatContent.write_to s = some evs) :
    evs = styledSpecEvents s
    ∧ (sentinel ∉ s.data → evs = [.print s]) := by
  simp only [McFormatContent.write_to] at h
  cases hsp : mcSplits s with
  | nil =>
    exfalso
    cases hs2 : splitChar sentinel s.data with
    | nil => exact splitChar_ne_nil sentinel s.data hs2
    | cons a b =>
      simp only [mcSplits, hs2, List.map_cons] at hsp
      simp at hsp
  | cons first rest =>
    rw [hsp] at h
    dsimp only at h
    cases hm : mapOpt segWrite rest with
    | none => rw [hm] at h; cases h
    | some evss =>
      rw [hm] at h
      simp only [Option.some.injEq] at h
      have hevss : evss = rest.map segSpec :=
        mapOpt_some_eq segWrite segSpec segWrite_eq_segSpec rest evss hm
      constructor
      · rw [← h, hevss]
        simp only [styledSpecEvents, hsp]
      · intro hns
        have hsingle : mcSplits s = [s] := by
          simp only [mcSplits, splitChar_of_not_mem hns, List.map_cons,
            List.map_nil]
        rw [hsp] at hsingle
        injection hsingle with e1 e2
        subst e1
        subst e2
        simp only [mapOpt, Option.some.injEq] at hm
        rw [← h, ← hm]
        simp

/-- C7 (witness): `"§aHello§r World"` succeeds and produces exactly the
claim's event sequence: the (empty) first segment, green `"Hello"`, a
mid-stream reset with `" World"`, and one final reset. -/
theorem styled_stream_matches_claim_witness :
    McFormatContent.write_to "§aHello§r World" =
      some [.print "", .setFg .green, .print "Hello", .resetColor,
        .print " World", .resetColor]
    ∧ [Event.print "", .setFg .green, .print "Hello", .resetColor,
        .print " World", .resetColor] =
      styledSpecEvents "§aHello§r World" := by
  refine ⟨by decide, ?_⟩
  have h := styled_stream_matches_claim "§aHello§r World"
    [.print "", .setFg .green, .print "Hello", .resetColor,
      .print " World", .resetColor] (by decide)
  exact h.1

/-- C10: `McFormatContent::width` is, over the lines of the string, the
maximum of (character count − 2 × sentinel count), defined exactly when every
line has at least two characters per sentinel occurrence; on the bare
sentinel string `"§"` the `usize` subtraction underflows instead of returning
a width. -/
theorem mc_width_formula_and_underflow :
    (∀ s : String,
      (∀ l ∈ rustLines s, l.data.count sentinel * 2 ≤ l.length) →
      McFormatContent.width s =
        some (((rustLines s).map
          (fun l => l.length - l.data.count sentinel * 2)).foldl max 0))
    ∧ McFormatContent.width "§" = none := by
  constructor
  · intro s h
    simp only [McFormatContent.width]
    rw [mapOpt_eq_map mcLineVal (fun l => l.length - l.data.count sentinel * 2)
      (rustLines s) (fun l hl => by simp only [mcLineVal]; rw [if_pos (h l hl)])]
    rfl
  · decide

/-- C10 (witness): `"§aHi\nabc"` satisfies the per-line bound and its width
is `max(4-2, 3) = 3`. -/
theorem mc_width_formula_and_underflow_witness :
    (∀ l ∈ rustLines "§aHi\nabc", l.data.count sentinel * 2 ≤ l.length)
    ∧ McFormatContent.width "§aHi\nabc" = some 3 := by
  refine ⟨by decide, ?_⟩
  have h := mc_width_formula_and_underflow.1 "§aHi\nabc" (by decide)
  exact h.trans (by decide)

end Mcstat
